import Mathlib

set_option maxHeartbeats 1000000

/-!
Shallow embedding of the navigation-table parser (`src/navigation_table.py`).

The Python module locates a 3-column markdown table (`level`, `path`, `navlink`)
inside a page, filters its lines, and parses each surviving line into a
`TableRow`.  All pattern matching in the source is done with Python `re`
regular expressions; here each compiled pattern is embedded as a hand-written
matcher over `List Char` that reproduces the backtracking order of the Python
engine on the relevant pattern.  Where the regex alternatives are pairwise
disjoint (whitespace run followed by a literal `|`, digit run followed by
whitespace, ...) the matcher is written deterministically, which coincides
with the backtracking semantics; the only genuinely backtracking part, the
non-greedy navlink title inside `_NAVLINK_REGEX`, is embedded with an explicit
search that mirrors the engine's priority order (maximal leading `\s*` first,
then shortest title first).

Character classes are embedded at their ASCII fragment (`\s`, `\w` and
`string.punctuation` as they act on ASCII text); `str.splitlines` is embedded
for the separators `\n`, `\r\n` and `\r`.
-/

/-- Python `\s` (ASCII fragment): space, tab, newline, vertical tab, form feed,
carriage return. -/
def isWS (c : Char) : Bool :=
  decide (c.toNat = 32 ∨ c.toNat = 9 ∨ c.toNat = 10 ∨ c.toNat = 11 ∨ c.toNat = 12 ∨ c.toNat = 13)

/-- Python `\d` (ASCII fragment): the digits `0`-`9`. -/
def isDigitC (c : Char) : Bool :=
  decide (48 ≤ c.toNat ∧ c.toNat ≤ 57)

/-- Python `\w` (ASCII fragment): letters, digits and underscore. -/
def isWordC (c : Char) : Bool :=
  isDigitC c || decide (65 ≤ c.toNat ∧ c.toNat ≤ 90) ||
    decide (97 ≤ c.toNat ∧ c.toNat ≤ 122) || decide (c.toNat = 95)

/-- The `_PATH_REGEX` character class `[\w-]`. -/
def isPathC (c : Char) : Bool :=
  isWordC c || decide (c.toNat = 45)

/-- The `_NAVLINK_TITLE_REGEX` character class `[\w\- ` + `string.punctuation` + `]`:
inside the bracket expression the backslash of `string.punctuation` escapes the
following `]`, so the class is exactly the printable ASCII characters without
the backslash (code 92). -/
def isTitleC (c : Char) : Bool :=
  decide (32 ≤ c.toNat ∧ c.toNat ≤ 126 ∧ c.toNat ≠ 92)

/-- The `_NAVLINK_LINK_REGEX` character class: word characters, slash, hyphen. -/
def isLinkC (c : Char) : Bool :=
  isWordC c || decide (c.toNat = 47) || decide (c.toNat = 45)

/-- The `-` of `_FILLER_ROW_REGEX_COLUMN`. -/
def isDash (c : Char) : Bool :=
  c == '-'

/-- ASCII lower-casing, the effect of `re.IGNORECASE` on the header literals. -/
def lowerC (c : Char) : Char :=
  if 65 ≤ c.toNat ∧ c.toNat ≤ 90 then Char.ofNat (c.toNat + 32) else c

/-- Consume a maximal `\s*` run (greedy; deterministic whenever the following
pattern piece cannot start with a whitespace character, which is the case at
every use site below). -/
def dropWS : List Char → List Char
  | [] => []
  | c :: cs => if isWS c then dropWS cs else c :: cs

/-- Greedy maximal run of a character class: the span of `p` and the rest. -/
def spanP (p : Char → Bool) : List Char → List Char × List Char
  | [] => ([], [])
  | c :: cs =>
    if p c then (c :: (spanP p cs).1, (spanP p cs).2)
    else ([], c :: cs)

/-- Match one literal character. -/
def expectChar (x : Char) : List Char → Option (List Char)
  | [] => none
  | c :: cs => if c == x then some cs else none

/-- Match a literal word case-insensitively (the literal is given lower-case). -/
def expectLitCI : List Char → List Char → Option (List Char)
  | [], s => some s
  | _ :: _, [] => none
  | x :: xs, c :: cs => if lowerC c == x then expectLitCI xs cs else none

/-- Prefix match of `_TABLE_HEADER_PATTERN`
(`\s*\|\s*level\s*\|\s*path\s*\|\s*navlink\s*\|\s*`, `re.IGNORECASE`), returning
the rest of the input after the final `\|`; the trailing `\s*` always matches
and is dropped. -/
def headerMatchCore (line : List Char) : Option (List Char) := do
  let s ← expectChar '|' (dropWS line)
  let s ← expectLitCI "level".data (dropWS s)
  let s ← expectChar '|' (dropWS s)
  let s ← expectLitCI "path".data (dropWS s)
  let s ← expectChar '|' (dropWS s)
  let s ← expectLitCI "navlink".data (dropWS s)
  let s ← expectChar '|' (dropWS s)
  pure s

/-- Whether `_TABLE_HEADER_PATTERN.match(line)` succeeds. -/
def headerMatch (line : List Char) : Bool :=
  (headerMatchCore line).isSome

/-- One `\s*-+\s*\|` column of `_FILLER_ROW_PATTERN`. -/
def fillerCell (s : List Char) : Option (List Char) :=
  match spanP isDash (dropWS s) with
  | ([], _) => none
  | (_ :: _, r) => expectChar '|' (dropWS r)

/-- Whether `_FILLER_ROW_PATTERN.match(line)` succeeds
(`\s*\|` followed by three `\s*-+\s*\|` columns; the trailing `\s*` always
matches and is dropped). -/
def fillerMatch (line : List Char) : Bool :=
  (do
    let s ← expectChar '|' (dropWS line)
    let s ← fillerCell s
    let s ← fillerCell s
    let s ← fillerCell s
    pure s).isSome

/-- The part of `_ROW_PATTERN` after the navlink title:
`\s*\]\s*\(\s*(link chars ,zero or more)\s*\)\s*\|`, returning the captured
link and the rest of the input after the final `\|`. -/
def rowTail (s : List Char) : Option (List Char × List Char) := do
  let s ← expectChar ']' (dropWS s)
  let s ← expectChar '(' (dropWS s)
  let (link, s) := spanP isLinkC (dropWS s)
  let s ← expectChar ')' (dropWS s)
  let s ← expectChar '|' (dropWS s)
  pure (link, s)

/-- The non-greedy title `([...]+?)` followed by `rowTail`: titles are tried
shortest first, exactly the Python engine's order for `+?`.  `rev` holds the
(reversed) title prefix already committed. -/
def tryTitle (rev : List Char) : List Char → Option (List Char × List Char × List Char)
  | [] => none
  | c :: cs =>
    if isTitleC c then
      match rowTail cs with
      | some (link, rest) => some ((c :: rev).reverse, link, rest)
      | none => tryTitle (c :: rev) cs
    else none

/-- The `\s*` before the title followed by the title search: the greedy `\s*`
prefers consuming each whitespace character, falling back to starting the
title earlier only when every longer whitespace run fails — the Python
engine's order for `\s*` followed by `(...+?)`. -/
def wsTitleSearch : List Char → Option (List Char × List Char × List Char)
  | [] => none
  | c :: cs =>
    if isWS c then
      match wsTitleSearch cs with
      | some r => some r
      | none => tryTitle [] (c :: cs)
    else tryTitle [] (c :: cs)

/-- The four capture groups of `_ROW_PATTERN`. -/
structure RowCaps where
  levelText : List Char
  pathText : List Char
  titleText : List Char
  linkText : List Char
deriving DecidableEq

/-- Prefix match of `_ROW_PATTERN`
(`\s*\|\s*(\d+)\s*\|\s*([\w-]+)\s*\|\s*\[\s*(title+?)\s*\]\s*\(\s*(link*)\s*\)\s*\|`)
returning the four capture groups.  The pieces up to the opening `[` are
pairwise disjoint character runs, so greedy matching is deterministic; the
title part is handled by `wsTitleSearch`. -/
def rowMatch (line : List Char) : Option RowCaps := do
  let s ← expectChar '|' (dropWS line)
  match spanP isDigitC (dropWS s) with
  | ([], _) => none
  | (d0 :: ds, s) => do
    let s ← expectChar '|' (dropWS s)
    match spanP isPathC (dropWS s) with
    | ([], _) => none
    | (p0 :: ps, s) => do
      let s ← expectChar '|' (dropWS s)
      let s ← expectChar '[' (dropWS s)
      let (title, link, _) ← wsTitleSearch s
      pure ⟨d0 :: ds, p0 :: ps, title, link⟩

/-- Whether `_TABLE_PATTERN.match(page)` succeeds: the pattern
`[\s\S]*` + header + `[\s\S]*\|?` matches (from position 0) exactly when the
header pattern matches at some position of the page. -/
def hasHeaderSub : List Char → Bool
  | [] => false
  | c :: cs => headerMatch (c :: cs) || hasHeaderSub cs

/-- Modelled from the spec: `types_.Navlink` (module `types_` is not under
`src/`) — an immutable value object with a display title and an optional link,
compared by field equality. -/
structure Navlink where
  title : String
  link : Option String
deriving DecidableEq

/-- Modelled from the spec: `types_.TableRow` (module `types_` is not under
`src/`) — an immutable value object with a level, a path and a navlink,
compared by field equality. -/
structure TableRow where
  level : Nat
  path : String
  navlink : Navlink
deriving DecidableEq

/-- Python `int` applied to the digit run captured by `(\d+)`. -/
def digitsToNat (ds : List Char) : Nat :=
  ds.foldl (fun n c => 10 * n + (c.toNat - 48)) 0

/-- Modelled from the spec: the message of `NavigationTableParseError`
(module `exceptions` is not under `src/`), built in the source as
`f"Invalid table row, {line=!r}"`; `String.quote` stands in for Python `repr`,
so the message carries the offending line's literal text. -/
def rowErrorMessage (line : String) : String :=
  "Invalid table row, line=" ++ String.quote line

/-- `_line_to_row`: parse one line with `_ROW_PATTERN`; on failure the
`NavigationTableParseError` is embedded as `Except.error` carrying the
message.  `navlink_link or None` maps the empty capture to `none`. -/
def line_to_row (line : String) : Except String TableRow :=
  match rowMatch line.data with
  | none => Except.error (rowErrorMessage line)
  | some caps =>
    Except.ok
      { level := digitsToNat caps.levelText
        path := String.mk caps.pathText
        navlink :=
          { title := String.mk caps.titleText
            link := if caps.linkText.isEmpty then none else some (String.mk caps.linkText) } }

/-- `_filter_line`: `true` means the line is skipped; only lines that match
`_ROW_PATTERN` but neither the header nor the filler pattern are kept. -/
def filter_line (line : List Char) : Bool :=
  if headerMatch line then true
  else if fillerMatch line then true
  else if (rowMatch line).isSome then false
  else true

/-- Split at every `\n`, `\r\n` and `\r`, accumulating the current part
(reversed); `k` separators yield `k + 1` parts. -/
def splitAll (acc : List Char) : List Char → List (List Char)
  | [] => [acc.reverse]
  | '\r' :: '\n' :: rest => acc.reverse :: splitAll [] rest
  | '\r' :: rest => acc.reverse :: splitAll [] rest
  | '\n' :: rest => acc.reverse :: splitAll [] rest
  | c :: cs => splitAll (c :: acc) cs

/-- Drop the last part when it is empty: the part after the last separator is
empty exactly when the string ends with a separator (or is empty), and Python
`str.splitlines` yields no line for it. -/
def dropLastEmpty : List (List Char) → List (List Char)
  | [] => []
  | [l] => if l.isEmpty then [] else [l]
  | l :: l2 :: rest => l :: dropLastEmpty (l2 :: rest)

/-- Python `str.splitlines` (for the separators `\n`, `\r\n`, `\r`):
the empty string yields no lines and a terminating separator does not produce
a final empty line. -/
def splitlines (s : List Char) : List (List Char) :=
  dropLastEmpty (splitAll [] s)

/-- `_TABLE_PATTERN.match(page)` and `match.group(0)`: both `[\s\S]*` pieces
are greedy and the final `\|?` may match empty, so whenever the header occurs
anywhere the matched span is the whole page. -/
def tableMatch (page : String) : Option String :=
  if hasHeaderSub page.data then some page else none

/-- Fully consuming the generator `(_line_to_row(line) for line in lines)`:
rows are produced in order until the first parse error, which is re-raised. -/
def consumeRows : List (List Char) → Except String (List TableRow)
  | [] => Except.ok []
  | l :: ls =>
    match line_to_row (String.mk l) with
    | Except.error e => Except.error e
    | Except.ok r =>
      match consumeRows ls with
      | Except.error e => Except.error e
      | Except.ok rs => Except.ok (r :: rs)

/-- `from_page`: locate the table (the whole page when the header occurs, no
table otherwise), split into lines, keep the lines `_filter_line` does not
skip, and parse each; the result is the list obtained by fully consuming the
returned iterator. -/
def from_page (page : String) : Except String (List TableRow) :=
  match tableMatch page with
  | none => Except.ok []
  | some table =>
    consumeRows ((splitlines table.data).filter (fun l => ! filter_line l))

/-! ### Builders for well-formed table text

`mkRow` produces a row line of the grammar
`| <level> | <path> | [<title>](<link>) |` with an arbitrary number of spaces
`w 0`, ..., `w 11` at each of the twelve `\s*` positions of `_ROW_PATTERN`.
`ValidFields` states that the four fields consist of characters of their
respective classes (title trimmed and without `]`, so that the non-greedy
title capture is the title itself). -/

/-- A run of `n` spaces. -/
def sp (n : Nat) : List Char :=
  List.replicate n ' '

/-- Head of a character list with a default. -/
def headD (d : Char) : List Char → Char
  | [] => d
  | c :: _ => c

/-- Last element of a character list with a default. -/
def lastD (d : Char) : List Char → Char
  | [] => d
  | [c] => c
  | _ :: c2 :: rest => lastD d (c2 :: rest)

/-- A row line with spacing `w` at the twelve `\s*` slots of `_ROW_PATTERN`. -/
def mkRow (w : Nat → Nat) (d p t l : List Char) : List Char :=
  sp (w 0) ++ '|' :: sp (w 1) ++ d ++ sp (w 2) ++ '|' :: sp (w 3) ++ p ++ sp (w 4) ++
    '|' :: sp (w 5) ++ '[' :: sp (w 6) ++ t ++ sp (w 7) ++ ']' :: sp (w 8) ++
    '(' :: sp (w 9) ++ l ++ sp (w 10) ++ ')' :: sp (w 11) ++ '|' :: []

/-- Well-formed row fields: a non-empty digit run, a non-empty path of word
characters and hyphens, a non-empty title of title characters that does not
start or end with a space and contains no `]`, and a link of link characters
(possibly empty). -/
abbrev ValidFields (d p t l : List Char) : Prop :=
  d ≠ [] ∧ (∀ c ∈ d, isDigitC c = true) ∧
  p ≠ [] ∧ (∀ c ∈ p, isPathC c = true) ∧
  t ≠ [] ∧ (∀ c ∈ t, isTitleC c = true) ∧ ']' ∉ t ∧
  headD ' ' t ≠ ' ' ∧ lastD ' ' t ≠ ' ' ∧
  (∀ c ∈ l, isLinkC c = true)

/-- The `TableRow` that parsing a well-formed row with fields `d p t l`
produces. -/
def fieldsRow (d p t l : List Char) : TableRow :=
  { level := digitsToNat d
    path := String.mk p
    navlink :=
      { title := String.mk t
        link := if l.isEmpty then none else some (String.mk l) } }

/-- One well-formed row line: a spacing function for the twelve `\s*` slots
and the four fields. -/
structure RowSpec where
  ws : Nat → Nat
  levelText : List Char
  pathText : List Char
  titleText : List Char
  linkText : List Char

/-- The line of a `RowSpec`. -/
def specLine (r : RowSpec) : List Char :=
  mkRow r.ws r.levelText r.pathText r.titleText r.linkText

/-- The `TableRow` of a `RowSpec`. -/
def specRow (r : RowSpec) : TableRow :=
  fieldsRow r.levelText r.pathText r.titleText r.linkText

/-- Well-formedness of a `RowSpec`. -/
abbrev ValidSpec (r : RowSpec) : Prop :=
  ValidFields r.levelText r.pathText r.titleText r.linkText

/-- A header line in canonical spelling. -/
def headerLine : List Char :=
  "| Level | Path | Navlink |".data

/-- A filler line in canonical spelling. -/
def fillerLine : List Char :=
  "| -- | -- | -- |".data

/-- Join lines with `\n` separators (no trailing separator). -/
def joinLines : List (List Char) → List Char
  | [] => []
  | l :: [] => l
  | l :: l2 :: rest => l ++ '\n' :: joinLines (l2 :: rest)

/-- A page made of a header line, a filler line and the given row lines. -/
def buildPage (rs : List RowSpec) : List Char :=
  headerLine ++ '\n' :: fillerLine ++ '\n' :: joinLines (rs.map specLine)

/-- No line separators among the characters. -/
abbrev noNL (l : List Char) : Prop :=
  ∀ c ∈ l, c ≠ '\n' ∧ c ≠ '\r'

/-- The head of the list, if any, falsifies `p` (used to delimit greedy runs). -/
def headNotP (p : Char → Bool) : List Char → Prop
  | [] => True
  | c :: _ => p c = false

/-- The example page of the specification. -/
def examplePage : String :=
  "Some intro text.\n\n| Level | Path | Navlink |\n| -- | -- | -- |\n| 1 | group-1 | [Group 1]() |\n| 2 | page-1 | [Page 1](group-1/page-1) |"

/-- Concrete well-formed row specs used by the witnesses. -/
def exSpecA : RowSpec :=
  ⟨fun _ => 1, "1".data, "group-1".data, "Group 1".data, "".data⟩

/-- A second concrete well-formed row spec used by the witnesses. -/
def exSpecB : RowSpec :=
  ⟨fun _ => 0, "2".data, "p2".data, "T".data, "a/b".data⟩

/-! ### Character-class lemmas -/

theorem charToNat_inj {a b : Char} (h : a.toNat = b.toNat) : a = b :=
  Char.ext (UInt32.ext h)

theorem pred_ne {p : Char → Bool} {c x : Char} (h : p c = true) (hx : p x = false) : c ≠ x := by
  intro he
  rw [he, hx] at h
  exact Bool.noConfusion h

theorem isDigitC_not_ws {c : Char} (h : isDigitC c = true) : isWS c = false := by
  simp [isDigitC] at h
  simp [isWS]
  omega

theorem isPathC_not_ws {c : Char} (h : isPathC c = true) : isWS c = false := by
  simp [isPathC, isWordC, isDigitC] at h
  simp [isWS]
  omega

theorem isLinkC_not_ws {c : Char} (h : isLinkC c = true) : isWS c = false := by
  simp [isLinkC, isWordC, isDigitC] at h
  simp [isWS]
  omega

theorem isTitleC_not_ws {c : Char} (h : isTitleC c = true) (hs : c ≠ ' ') : isWS c = false := by
  have hn : c.toNat ≠ 32 := fun hn => hs (charToNat_inj (by rw [hn]; rfl))
  simp [isTitleC] at h
  simp [isWS]
  omega

theorem lowerC_of_digit {c : Char} (h : isDigitC c = true) : lowerC c = c := by
  simp [isDigitC] at h
  simp [lowerC]
  omega

/-! ### Matching-primitive lemmas -/

theorem dropWS_cons_ws {c : Char} (h : isWS c = true) (l : List Char) :
    dropWS (c :: l) = dropWS l := by
  simp [dropWS, h]

theorem dropWS_cons_nws {c : Char} (h : isWS c = false) (l : List Char) :
    dropWS (c :: l) = c :: l := by
  simp [dropWS, h]

theorem dropWS_sp (n : Nat) (l : List Char) : dropWS (sp n ++ l) = dropWS l := by
  induction n with
  | zero => simp [sp]
  | succ k ih =>
    simp only [sp, List.replicate_succ, List.cons_append] at ih ⊢
    rw [dropWS_cons_ws (by decide)]
    exact ih

theorem spanP_append {p : Char → Bool} {xs ys : List Char}
    (hall : ∀ c ∈ xs, p c = true) (hy : headNotP p ys) :
    spanP p (xs ++ ys) = (xs, ys) := by
  induction xs with
  | nil =>
    cases ys with
    | nil => rfl
    | cons c cs =>
      simp [headNotP] at hy
      simp [spanP, hy]
  | cons x xs ih =>
    have hx : p x = true := hall x (by simp)
    have hrec := ih (fun c hc => hall c (by simp [hc]))
    simp [spanP, hx, hrec]

theorem headNotP_sp_cons {p : Char → Bool} (hs : p ' ' = false) {c : Char} (hc : p c = false)
    (n : Nat) (X : List Char) : headNotP p (sp n ++ c :: X) := by
  cases n with
  | zero => simpa [sp, headNotP] using hc
  | succ k => simp [sp, List.replicate_succ, headNotP, hs]

theorem expectChar_cons_eq (x : Char) (l : List Char) : expectChar x (x :: l) = some l := by
  simp [expectChar]

theorem expectChar_cons_ne {x c : Char} (h : c ≠ x) (l : List Char) :
    expectChar x (c :: l) = none := by
  simp [expectChar, beq_false_of_ne h]

/-! ### The navlink tail -/

theorem rowTail_none {s : List Char} (h : expectChar ']' (dropWS s) = none) :
    rowTail s = none := by
  simp [rowTail, h]

theorem rowTail_mk (a b c d e : Nat) {l rest : List Char} (hl : ∀ x ∈ l, isLinkC x = true) :
    rowTail (sp a ++ ']' :: (sp b ++ '(' :: (sp c ++ (l ++ (sp d ++ ')' :: (sp e ++ '|' :: rest)))))) =
      some (l, rest) := by
  cases l with
  | nil =>
    simp [rowTail, dropWS_sp,
      dropWS_cons_nws (show isWS ']' = false by decide),
      dropWS_cons_nws (show isWS '(' = false by decide),
      dropWS_cons_nws (show isWS ')' = false by decide),
      dropWS_cons_nws (show isWS '|' = false by decide),
      expectChar_cons_eq, spanP, (show isLinkC ')' = false by decide)]
  | cons c0 l' =>
    have hall : ∀ x ∈ c0 :: l', isLinkC x = true := hl
    have hc0 : isLinkC c0 = true := hl c0 (by simp)
    have hspan : spanP isLinkC (c0 :: (l' ++ (sp d ++ ')' :: (sp e ++ '|' :: rest)))) =
        (c0 :: l', sp d ++ ')' :: (sp e ++ '|' :: rest)) := by
      have h := spanP_append hall
        (headNotP_sp_cons (show isLinkC ' ' = false by decide)
          (show isLinkC ')' = false by decide) d (sp e ++ '|' :: rest))
      simpa using h
    simp [rowTail, dropWS_sp,
      dropWS_cons_nws (show isWS ']' = false by decide),
      dropWS_cons_nws (show isWS '(' = false by decide),
      dropWS_cons_nws (show isWS ')' = false by decide),
      dropWS_cons_nws (show isWS '|' = false by decide),
      dropWS_cons_nws (isLinkC_not_ws hc0),
      expectChar_cons_eq, hspan]

/-! ### The non-greedy title search -/

theorem expect_after_title_none {x : Char} {ts : List Char} (X : List Char)
    (hall : ∀ c ∈ ts, isTitleC c = true) (hx : x ∉ ts) (hne : ts ≠ [])
    (hlast : lastD ' ' ts ≠ ' ') :
    expectChar x (dropWS (ts ++ X)) = none := by
  induction ts with
  | nil => exact absurd rfl hne
  | cons c cs ih =>
    cases cs with
    | nil =>
      have hc : isTitleC c = true := hall c (by simp)
      have hcs : c ≠ ' ' := by simpa [lastD] using hlast
      have hcx : c ≠ x := fun he => hx (by simp [he])
      rw [List.cons_append, List.nil_append, dropWS_cons_nws (isTitleC_not_ws hc hcs)]
      exact expectChar_cons_ne hcx X
    | cons c2 rest =>
      by_cases hws : isWS c = true
      · rw [List.cons_append, dropWS_cons_ws hws]
        exact ih (fun y hy => hall y (by simp [hy])) (fun h => hx (by simp [h]))
          (by simp) (by simpa [lastD] using hlast)
      · have hws' : isWS c = false := by
          cases h2 : isWS c
          · rfl
          · exact absurd h2 hws
        have hcx : c ≠ x := fun he => hx (by simp [he])
        rw [List.cons_append, dropWS_cons_nws hws']
        exact expectChar_cons_ne hcx _

theorem tryTitle_cons (rev : List Char) (c : Char) (cs : List Char) :
    tryTitle rev (c :: cs) =
      if isTitleC c then
        match rowTail cs with
        | some (link, rest) => some ((c :: rev).reverse, link, rest)
        | none => tryTitle (c :: rev) cs
      else none := rfl

theorem tryTitle_mk {t : List Char} (rev : List Char) {tail link rest : List Char}
    (hne : t ≠ []) (hall : ∀ c ∈ t, isTitleC c = true) (hnb : ']' ∉ t)
    (hlast : lastD ' ' t ≠ ' ')
    (htail : rowTail tail = some (link, rest)) :
    tryTitle rev (t ++ tail) = some (rev.reverse ++ t, link, rest) := by
  induction t generalizing rev with
  | nil => exact absurd rfl hne
  | cons c cs ih =>
    have hc : isTitleC c = true := hall c (by simp)
    cases cs with
    | nil =>
      simp [tryTitle, hc, htail]
    | cons c2 rest2 =>
      have hall2 : ∀ y ∈ c2 :: rest2, isTitleC y = true := fun y hy => hall y (by simp [hy])
      have hnb2 : ']' ∉ c2 :: rest2 := fun hmem => hnb (by simp [hmem])
      have hlast2 : lastD ' ' (c2 :: rest2) ≠ ' ' := by simpa [lastD] using hlast
      have hrt : rowTail (c2 :: (rest2 ++ tail)) = none := by
        have h := rowTail_none (expect_after_title_none tail hall2 hnb2 (by simp) hlast2)
        simpa using h
      have hstep := ih (c :: rev) (by simp) hall2 hnb2 hlast2
      simp only [List.cons_append] at hstep
      simp only [List.cons_append]
      rw [tryTitle_cons, if_pos hc, hrt]
      show tryTitle (c :: rev) (c2 :: (rest2 ++ tail)) = _
      rw [hstep]
      simp

theorem wsTitleSearch_cons (c : Char) (cs : List Char) :
    wsTitleSearch (c :: cs) =
      if isWS c then
        match wsTitleSearch cs with
        | some r => some r
        | none => tryTitle [] (c :: cs)
      else tryTitle [] (c :: cs) := rfl

theorem wsTitleSearch_mk (n : Nat) {t tail link rest : List Char}
    (hne : t ≠ []) (hall : ∀ c ∈ t, isTitleC c = true) (hnb : ']' ∉ t)
    (hhead : headD ' ' t ≠ ' ') (hlast : lastD ' ' t ≠ ' ')
    (htail : rowTail tail = some (link, rest)) :
    wsTitleSearch (sp n ++ (t ++ tail)) = some (t, link, rest) := by
  induction n with
  | zero =>
    cases t with
    | nil => exact absurd rfl hne
    | cons c cs =>
      have hc : isTitleC c = true := hall c (by simp)
      have hcsp : c ≠ ' ' := by simpa [headD] using hhead
      have hws : isWS c = false := isTitleC_not_ws hc hcsp
      have htt := tryTitle_mk (t := c :: cs) [] hne hall hnb hlast htail
      simp only [sp, List.replicate, List.nil_append, List.cons_append] at htt ⊢
      rw [wsTitleSearch_cons, if_neg (by simp [hws])]
      simpa using htt
  | succ k ih =>
    have hrw : sp (k + 1) ++ (t ++ tail) = ' ' :: (sp k ++ (t ++ tail)) := by
      simp [sp, List.replicate_succ]
    rw [hrw, wsTitleSearch_cons, if_pos (by decide)]
    rw [ih]

/-! ### Matching a constructed row line -/

theorem spanP_run_cons {p : Char → Bool} {x0 : Char} {xs : List Char}
    (hall : ∀ c ∈ x0 :: xs, p c = true) (hsp : p ' ' = false) {c : Char} (hc : p c = false)
    (n : Nat) (X : List Char) :
    spanP p (x0 :: (xs ++ (sp n ++ c :: X))) = (x0 :: xs, sp n ++ c :: X) := by
  have h := spanP_append hall (headNotP_sp_cons hsp hc n X)
  simpa using h

theorem rowMatch_mk (w : Nat → Nat) {d p t l : List Char} (rest : List Char)
    (h : ValidFields d p t l) :
    rowMatch (mkRow w d p t l ++ rest) = some ⟨d, p, t, l⟩ := by
  obtain ⟨hdne, hdall, hpne, hpall, htne, htall, htnb, hthead, htlast, hlall⟩ := h
  cases d with
  | nil => exact absurd rfl hdne
  | cons d0 d' =>
  cases p with
  | nil => exact absurd rfl hpne
  | cons p0 p' =>
  have hd0 : isDigitC d0 = true := hdall d0 (by simp)
  have hp0 : isPathC p0 = true := hpall p0 (by simp)
  simp only [mkRow, List.cons_append, List.append_assoc, List.nil_append]
  simp [rowMatch, dropWS_sp,
    dropWS_cons_nws (show isWS '|' = false by decide),
    dropWS_cons_nws (show isWS '[' = false by decide),
    dropWS_cons_nws (isDigitC_not_ws hd0),
    dropWS_cons_nws (isPathC_not_ws hp0),
    expectChar_cons_eq,
    spanP_run_cons hdall (show isDigitC ' ' = false by decide)
      (show isDigitC '|' = false by decide),
    spanP_run_cons hpall (show isPathC ' ' = false by decide)
      (show isPathC '|' = false by decide),
    wsTitleSearch_mk (w 6) htne htall htnb hthead htlast
      (rowTail_mk (w 7) (w 8) (w 9) (w 10) (w 11) hlall)]

theorem headerMatch_mk_false (w : Nat → Nat) {d p t l : List Char} (rest : List Char)
    (h : ValidFields d p t l) :
    headerMatch (mkRow w d p t l ++ rest) = false := by
  obtain ⟨hdne, hdall, _⟩ := h
  cases d with
  | nil => exact absurd rfl hdne
  | cons d0 d' =>
  have hd0 : isDigitC d0 = true := hdall d0 (by simp)
  have hlow : (lowerC d0 == 'l') = false :=
    beq_false_of_ne (by rw [lowerC_of_digit hd0]; exact pred_ne hd0 (by decide))
  have hld : "level".data = 'l' :: 'e' :: 'v' :: 'e' :: 'l' :: [] := rfl
  simp only [mkRow, List.cons_append, List.append_assoc, List.nil_append]
  simp [headerMatch, headerMatchCore, hld, dropWS_sp,
    dropWS_cons_nws (show isWS '|' = false by decide),
    dropWS_cons_nws (isDigitC_not_ws hd0),
    expectChar_cons_eq, expectLitCI, hlow]

theorem fillerMatch_mk_false (w : Nat → Nat) {d p t l : List Char} (rest : List Char)
    (h : ValidFields d p t l) :
    fillerMatch (mkRow w d p t l ++ rest) = false := by
  obtain ⟨hdne, hdall, _⟩ := h
  cases d with
  | nil => exact absurd rfl hdne
  | cons d0 d' =>
  have hd0 : isDigitC d0 = true := hdall d0 (by simp)
  have hdash : isDash d0 = false := by
    simp only [isDash]
    exact beq_false_of_ne (pred_ne hd0 (by decide))
  simp only [mkRow, List.cons_append, List.append_assoc, List.nil_append]
  simp [fillerMatch, fillerCell, dropWS_sp,
    dropWS_cons_nws (show isWS '|' = false by decide),
    dropWS_cons_nws (isDigitC_not_ws hd0),
    expectChar_cons_eq, spanP, hdash]

theorem filter_line_mk (w : Nat → Nat) {d p t l : List Char} (rest : List Char)
    (h : ValidFields d p t l) :
    filter_line (mkRow w d p t l ++ rest) = false := by
  simp [filter_line, headerMatch_mk_false w rest h, fillerMatch_mk_false w rest h,
    rowMatch_mk w rest h]

theorem line_to_row_mk (w : Nat → Nat) {d p t l : List Char} (rest : List Char)
    (h : ValidFields d p t l) :
    line_to_row (String.mk (mkRow w d p t l ++ rest)) = Except.ok (fieldsRow d p t l) := by
  have hdata : (String.mk (mkRow w d p t l ++ rest)).data = mkRow w d p t l ++ rest := rfl
  simp [line_to_row, hdata, rowMatch_mk w rest h, fieldsRow]

/-! ### Line splitting and page assembly -/

theorem splitAll_nil (acc : List Char) : splitAll acc [] = [acc.reverse] := rfl

theorem splitAll_n (acc rest : List Char) :
    splitAll acc ('\n' :: rest) = acc.reverse :: splitAll [] rest := rfl

theorem splitAll_other {c : Char} (h1 : c ≠ '\n') (h2 : c ≠ '\r') (acc cs : List Char) :
    splitAll acc (c :: cs) = splitAll (c :: acc) cs := by
  rw [splitAll.eq_def]
  split <;> simp_all

theorem splitAll_append_line {a : List Char} (ha : noNL a) (acc rest : List Char) :
    splitAll acc (a ++ '\n' :: rest) = (acc.reverse ++ a) :: splitAll [] rest := by
  induction a generalizing acc with
  | nil => simpa using splitAll_n acc rest
  | cons c a' ih =>
    have hc := ha c (by simp)
    rw [List.cons_append, splitAll_other hc.1 hc.2]
    rw [ih (fun y hy => ha y (by simp [hy]))]
    simp

theorem splitAll_noNL {a : List Char} (ha : noNL a) (acc : List Char) :
    splitAll acc a = [acc.reverse ++ a] := by
  induction a generalizing acc with
  | nil => simp [splitAll_nil]
  | cons c a' ih =>
    rw [splitAll_other (ha c (by simp)).1 (ha c (by simp)).2]
    rw [ih (fun y hy => ha y (by simp [hy]))]
    simp

theorem dropLastEmpty_all_ne {ls : List (List Char)} (h : ∀ l ∈ ls, l ≠ []) :
    dropLastEmpty ls = ls := by
  induction ls with
  | nil => rfl
  | cons l ls ih =>
    cases ls with
    | nil =>
      cases hl : l with
      | nil => exact absurd hl (h l (by simp))
      | cons x xs => simp [dropLastEmpty]
    | cons l2 rest =>
      rw [show dropLastEmpty (l :: l2 :: rest) = l :: dropLastEmpty (l2 :: rest) from rfl]
      rw [ih (fun y hy => h y (by simp [hy]))]

theorem joinLines_ne_nil {x : List Char} (hx : x ≠ []) (xs : List (List Char)) :
    joinLines (x :: xs) ≠ [] := by
  cases xs with
  | nil => simpa [joinLines] using hx
  | cons y ys => simp [joinLines]

theorem splitAll_joinLines {ls : List (List Char)} (h : ∀ l ∈ ls, noNL l) (hne : ls ≠ []) :
    splitAll [] (joinLines ls) = ls := by
  induction ls with
  | nil => exact absurd rfl hne
  | cons l ls ih =>
    cases ls with
    | nil => simpa [joinLines] using splitAll_noNL (h l (by simp)) []
    | cons l2 rest =>
      rw [show joinLines (l :: l2 :: rest) = l ++ '\n' :: joinLines (l2 :: rest) from rfl]
      rw [splitAll_append_line (h l (by simp)) [] _]
      simp only [List.reverse_nil, List.nil_append]
      rw [ih (fun y hy => h y (by simp [hy])) (by simp)]

/-! ### Characters of constructed rows -/

theorem mem_sp {c : Char} {n : Nat} (h : c ∈ sp n) : c = ' ' := by
  simp [sp, List.mem_replicate] at h
  exact h.2

theorem isDigitC_ge32 {c : Char} (h : isDigitC c = true) : 32 ≤ c.toNat := by
  simp [isDigitC] at h
  omega

theorem isPathC_ge32 {c : Char} (h : isPathC c = true) : 32 ≤ c.toNat := by
  simp [isPathC, isWordC, isDigitC] at h
  omega

theorem isTitleC_ge32 {c : Char} (h : isTitleC c = true) : 32 ≤ c.toNat := by
  simp [isTitleC] at h
  omega

theorem isLinkC_ge32 {c : Char} (h : isLinkC c = true) : 32 ≤ c.toNat := by
  simp [isLinkC, isWordC, isDigitC] at h
  omega

theorem ge32_noNL {c : Char} (h : 32 ≤ c.toNat) : c ≠ '\n' ∧ c ≠ '\r' :=
  ⟨fun he => absurd h (by rw [he]; decide), fun he => absurd h (by rw [he]; decide)⟩

theorem noNL_mkRow (w : Nat → Nat) {d p t l : List Char} (h : ValidFields d p t l) :
    noNL (mkRow w d p t l) := by
  obtain ⟨_, hdall, _, hpall, _, htall, _, _, _, hlall⟩ := h
  intro c hc
  apply ge32_noNL
  simp only [mkRow, List.mem_append, List.mem_cons, List.not_mem_nil, or_false] at hc
  casesm* _ ∨ _ <;> rename_i h <;>
    first
      | (subst h; decide)
      | (exact isDigitC_ge32 (hdall _ h))
      | (exact isPathC_ge32 (hpall _ h))
      | (exact isTitleC_ge32 (htall _ h))
      | (exact isLinkC_ge32 (hlall _ h))
      | (rw [mem_sp h]; decide)

theorem mkRow_ne_nil (w : Nat → Nat) (d p t l : List Char) : mkRow w d p t l ≠ [] := by
  simp [mkRow, sp]

/-! ### Locating the header -/

theorem headerMatch_headerLine (X : List Char) : headerMatch (headerLine ++ X) = true := rfl

theorem hasHeaderSub_headerLine (X : List Char) : hasHeaderSub (headerLine ++ X) = true := rfl

theorem hasHeaderSub_append_right {Y : List Char} (h : hasHeaderSub Y = true) (X : List Char) :
    hasHeaderSub (X ++ Y) = true := by
  induction X with
  | nil => simpa using h
  | cons c cs ih => simp [hasHeaderSub, ih]

theorem hasHeaderSub_exists {l : List Char} (h : hasHeaderSub l = true) :
    ∃ i, headerMatch (l.drop i) = true := by
  induction l with
  | nil => simp [hasHeaderSub] at h
  | cons c cs ih =>
    simp only [hasHeaderSub, Bool.or_eq_true] at h
    rcases h with h | h
    · exact ⟨0, h⟩
    · obtain ⟨i, hi⟩ := ih h
      exact ⟨i + 1, by simpa using hi⟩

theorem filter_line_headerLine : filter_line headerLine = true := by decide

theorem filter_line_fillerLine : filter_line fillerLine = true := by decide

/-! ### The pipeline on constructed pages -/

theorem from_page_header {page : String} (h : hasHeaderSub page.data = true) :
    from_page page =
      consumeRows ((splitlines page.data).filter (fun l => ! filter_line l)) := by
  simp [from_page, tableMatch, h]

theorem from_page_no_header {page : String} (h : hasHeaderSub page.data = false) :
    from_page page = Except.ok [] := by
  simp [from_page, tableMatch, h]

theorem consumeRows_specLines (ls : List RowSpec) (h : ∀ r ∈ ls, ValidSpec r) :
    consumeRows (ls.map specLine) = Except.ok (ls.map specRow) := by
  induction ls with
  | nil => rfl
  | cons r rs ih =>
    have hr : ValidSpec r := h r (by simp)
    have hline : line_to_row (String.mk (specLine r)) = Except.ok (specRow r) := by
      have hx := line_to_row_mk r.ws (d := r.levelText) (p := r.pathText) (t := r.titleText)
        (l := r.linkText) [] hr
      simpa [specLine, specRow] using hx
    simp [consumeRows, hline, ih (fun y hy => h y (by simp [hy]))]

theorem filter_line_specLine {r : RowSpec} (h : ValidSpec r) :
    filter_line (specLine r) = false := by
  have hx := filter_line_mk r.ws (d := r.levelText) (p := r.pathText) (t := r.titleText)
    (l := r.linkText) [] h
  simpa [specLine] using hx

theorem filter_specLines (ls : List RowSpec) (h : ∀ r ∈ ls, ValidSpec r) :
    (ls.map specLine).filter (fun l => ! filter_line l) = ls.map specLine := by
  induction ls with
  | nil => rfl
  | cons r rs ih =>
    simp [List.filter_cons, filter_line_specLine (h r (by simp)),
      ih (fun y hy => h y (by simp [hy]))]

theorem string_mk_data (l : List Char) : (String.mk l).data = l := rfl

theorem filter_line_false_rowMatch {l : List Char} (h : filter_line l = false) :
    (rowMatch l).isSome = true := by
  by_cases h1 : headerMatch l = true
  · simp [filter_line, h1] at h
  · by_cases h2 : fillerMatch l = true
    · simp [filter_line, h1, h2] at h
    · by_cases h3 : (rowMatch l).isSome = true
      · exact h3
      · simp [filter_line, h1, h2, h3] at h

theorem consumeRows_ok {ls : List (List Char)} (h : ∀ l ∈ ls, (rowMatch l).isSome = true) :
    ∃ rows, consumeRows ls = Except.ok rows := by
  induction ls with
  | nil => exact ⟨[], rfl⟩
  | cons l ls ih =>
    obtain ⟨caps, hc⟩ := Option.isSome_iff_exists.mp (h l (by simp))
    obtain ⟨rows, hr⟩ := ih (fun y hy => h y (by simp [hy]))
    refine ⟨{ level := digitsToNat caps.levelText, path := String.mk caps.pathText,
              navlink := { title := String.mk caps.titleText,
                           link := if caps.linkText.isEmpty then none
                                   else some (String.mk caps.linkText) } } :: rows, ?_⟩
    simp [consumeRows, line_to_row, string_mk_data, hc, hr]

/-! ### Claims -/

/-- C1: on the example page (intro text, blank line, header, filler, and the two
rows), `from_page` yields exactly `TableRow(1, "group-1", Navlink("Group 1", None))`
followed by `TableRow(2, "page-1", Navlink("Page 1", "group-1/page-1"))`. -/
theorem c1_example_page :
    from_page examplePage =
      Except.ok [⟨1, "group-1", ⟨"Group 1", none⟩⟩,
        ⟨2, "page-1", ⟨"Page 1", some "group-1/page-1"⟩⟩] := by
  rfl

/-- C2: for every page none of whose positions starts a match of the header
pattern, `from_page` returns the empty row sequence and no error. -/
theorem c2_no_header_empty (page : String)
    (h : ∀ i, headerMatch (page.data.drop i) = false) :
    from_page page = Except.ok [] := by
  have hh : hasHeaderSub page.data = false := by
    cases hx : hasHeaderSub page.data
    · rfl
    · obtain ⟨i, hi⟩ := hasHeaderSub_exists hx
      rw [h i] at hi
      exact Bool.noConfusion hi
  exact from_page_no_header hh

/-- C2 witness: a concrete page with no header substring. -/
theorem c2_no_header_empty_witness : from_page "hello" = Except.ok [] := by
  apply c2_no_header_empty
  intro i
  match i with
  | 0 => decide
  | 1 => decide
  | 2 => decide
  | 3 => decide
  | 4 => decide
  | n + 5 =>
    have hlen : ("hello" : String).data.length = 5 := rfl
    rw [List.drop_eq_nil_of_le (by rw [hlen]; omega)]
    decide

/-- C3: for every page, fully consuming the iterator returned by `from_page`
never produces a parse error: the line filter keeps only lines on which
`_ROW_PATTERN` already matches, so `_line_to_row` succeeds on each of them. -/
theorem c3_never_raises (page : String) :
    ∃ rows, from_page page = Except.ok rows := by
  cases hh : hasHeaderSub page.data
  · exact ⟨[], from_page_no_header hh⟩
  · rw [from_page_header hh]
    apply consumeRows_ok
    intro l hl
    have hkeep := (List.mem_filter.mp hl).2
    simp only [Bool.not_eq_true'] at hkeep
    exact filter_line_false_rowMatch hkeep

/-- C4: `_line_to_row` fails exactly on the lines that `_ROW_PATTERN` does not
match, and the error carries the offending line's literal text (in the message
`Invalid table row, line=...`); on a matching line it returns a `TableRow` and
no error. -/
theorem c4_parse_error_iff (line : String) :
    (rowMatch line.data = none ↔
      line_to_row line = Except.error (rowErrorMessage line)) ∧
    ((∃ caps, rowMatch line.data = some caps) →
      ∃ row, line_to_row line = Except.ok row) := by
  cases h : rowMatch line.data <;> simp [line_to_row, h]

/-- C4 witness: a non-row line errors with the message carrying the line; a row
line parses. -/
theorem c4_parse_error_iff_witness :
    line_to_row "x" = Except.error (rowErrorMessage "x") ∧
    ∃ row, line_to_row "| 1 | p | [t]() |" = Except.ok row :=
  ⟨(c4_parse_error_iff "x").1.mp (by decide),
   (c4_parse_error_iff "| 1 | p | [t]() |").2 ⟨⟨"1".data, "p".data, "t".data, []⟩, by decide⟩⟩

theorem line_to_row_mk_nil (w : Nat → Nat) {d p t l : List Char} (h : ValidFields d p t l) :
    line_to_row (String.mk (mkRow w d p t l)) = Except.ok (fieldsRow d p t l) := by
  have hx := line_to_row_mk w [] h
  simpa using hx

theorem optLink_inj {l1 l2 : List Char}
    (h : (if l1.isEmpty then none else some (String.mk l1)) =
         (if l2.isEmpty then none else some (String.mk l2))) : l1 = l2 := by
  cases l1 with
  | nil =>
    cases l2 with
    | nil => rfl
    | cons c2 t2 => simp at h
  | cons c1 t1 =>
    cases l2 with
    | nil => simp at h
    | cons c2 t2 =>
      have h2 : String.mk (c1 :: t1) = String.mk (c2 :: t2) := by simpa using h
      exact congrArg String.data h2

theorem noNL_headerLine : noNL headerLine := by decide

theorem noNL_fillerLine : noNL fillerLine := by decide

/-- C5: building a page from a header line, a filler line and `N` well-formed
row lines and running `from_page` yields exactly the `N` corresponding
`TableRow`s, in the original order. -/
theorem c5_round_trip (rs : List RowSpec) (h : ∀ r ∈ rs, ValidSpec r) :
    from_page (String.mk (buildPage rs)) = Except.ok (rs.map specRow) ∧
    (rs.map specRow).length = rs.length := by
  refine ⟨?_, by simp⟩
  cases rs with
  | nil => rfl
  | cons r rest =>
    have hvalid : ∀ x ∈ r :: rest, ValidSpec x := h
    have hh : hasHeaderSub (String.mk (buildPage (r :: rest))).data = true := by
      rw [string_mk_data]
      simp only [buildPage]
      exact hasHeaderSub_headerLine _
    have hmapNoNL : ∀ l ∈ (r :: rest).map specLine, noNL l := by
      intro l hl
      obtain ⟨x, hx, rfl⟩ := List.mem_map.mp hl
      exact noNL_mkRow x.ws (hvalid x hx)
    have hmapNe : ∀ l ∈ (r :: rest).map specLine, l ≠ [] := by
      intro l hl
      obtain ⟨x, hx, rfl⟩ := List.mem_map.mp hl
      exact mkRow_ne_nil x.ws _ _ _ _
    have hsplit : splitlines (String.mk (buildPage (r :: rest))).data =
        headerLine :: fillerLine :: (r :: rest).map specLine := by
      rw [string_mk_data]
      simp only [buildPage, splitlines, List.cons_append, List.append_assoc]
      rw [splitAll_append_line noNL_headerLine, splitAll_append_line noNL_fillerLine,
        splitAll_joinLines hmapNoNL (by simp)]
      simp only [List.reverse_nil, List.nil_append]
      exact dropLastEmpty_all_ne (by
        intro x hx
        simp only [List.mem_cons] at hx
        rcases hx with rfl | rfl | hx
        · decide
        · decide
        · exact hmapNe x hx)
    have hcr := consumeRows_specLines (r :: rest) hvalid
    simp only [List.map_cons] at hcr
    rw [from_page_header hh, hsplit]
    simp [List.filter_cons, filter_line_headerLine, filter_line_fillerLine,
      filter_line_specLine (hvalid r (by simp)),
      filter_specLines rest (fun y hy => hvalid y (by simp [hy])), hcr]

/-- C5 witness: two concrete well-formed rows round-trip through a built page. -/
theorem c5_round_trip_witness :
    from_page (String.mk (buildPage (exSpecA :: exSpecB :: []))) =
      Except.ok ((exSpecA :: exSpecB :: []).map specRow) ∧
    ((exSpecA :: exSpecB :: []).map specRow).length = (exSpecA :: exSpecB :: []).length :=
  c5_round_trip _ (by
    intro x hx
    simp only [List.mem_cons, List.not_mem_nil, or_false] at hx
    rcases hx with rfl | rfl
    · decide
    · decide)

/-- C6 counterexample: the two lines differ in their level text (the captured
group is `"1"` versus `"01"`), yet they parse to the same `TableRow`, because
`int` discards leading zeros — so distinct field content does not imply
distinct rows. -/
theorem c6_counterexample :
    rowMatch "| 1 | p | [t]() |".data = some ⟨"1".data, "p".data, "t".data, []⟩ ∧
    rowMatch "| 01 | p | [t]() |".data = some ⟨"01".data, "p".data, "t".data, []⟩ ∧
    "1".data ≠ "01".data ∧
    line_to_row "| 1 | p | [t]() |" = line_to_row "| 01 | p | [t]() |" :=
  ⟨by decide, by decide, by decide, rfl⟩

/-- C6 (amended): `_line_to_row` is injective on well-formed rows whose field
content differs as values — different level integer (rather than level text),
path, title, or link — the level text only matters through the integer it
denotes. -/
theorem c6_injective_values (w1 w2 : Nat → Nat) {d1 p1 t1 l1 d2 p2 t2 l2 : List Char}
    (h1 : ValidFields d1 p1 t1 l1) (h2 : ValidFields d2 p2 t2 l2)
    (hne : digitsToNat d1 ≠ digitsToNat d2 ∨ p1 ≠ p2 ∨ t1 ≠ t2 ∨ l1 ≠ l2) :
    line_to_row (String.mk (mkRow w1 d1 p1 t1 l1)) ≠
      line_to_row (String.mk (mkRow w2 d2 p2 t2 l2)) := by
  intro he
  rw [line_to_row_mk_nil w1 h1, line_to_row_mk_nil w2 h2] at he
  injection he with he
  have hlv := congrArg TableRow.level he
  have hpa := congrArg (fun r => r.path.data) he
  have hti := congrArg (fun r => r.navlink.title.data) he
  have hlk := congrArg (fun r => r.navlink.link) he
  simp only [fieldsRow] at hlv hpa hti hlk
  rcases hne with hx | hx | hx | hx
  · exact hx hlv
  · exact hx hpa
  · exact hx hti
  · exact hx (optLink_inj hlk)

/-- C6 witness for the amended claim: rows with different level values parse
to different `TableRow`s. -/
theorem c6_injective_values_witness :
    line_to_row (String.mk (mkRow (fun _ => 1) "1".data "p".data "t".data [])) ≠
      line_to_row (String.mk (mkRow (fun _ => 1) "2".data "p".data "t".data [])) :=
  c6_injective_values _ _ (by decide) (by decide) (Or.inl (by decide))

/-- C7: for every well-formed row line, the parsed `navlink.link` is `none`
exactly when the captured link text is empty (whatever whitespace surrounds it
inside the parentheses, since the `\s*` pieces are matched outside the capture),
and it is the captured link text otherwise. -/
theorem c7_link_omission (w : Nat → Nat) {d p t l : List Char} (h : ValidFields d p t l) :
    ∃ row, line_to_row (String.mk (mkRow w d p t l)) = Except.ok row ∧
      (row.navlink.link = none ↔ l = []) ∧
      (l ≠ [] → row.navlink.link = some (String.mk l)) := by
  refine ⟨fieldsRow d p t l, line_to_row_mk_nil w h, ?_, ?_⟩ <;>
    cases l <;> simp [fieldsRow]

/-- C7 witness: an empty link cell (with surrounding spaces) gives `none`; a
non-empty one gives the link text. -/
theorem c7_link_omission_witness :
    (∃ row, line_to_row (String.mk (mkRow (fun _ => 1) "1".data "p".data "Group 1".data [])) =
        Except.ok row ∧ (row.navlink.link = none ↔ ([] : List Char) = []) ∧
        (([] : List Char) ≠ [] → row.navlink.link = some (String.mk []))) ∧
    (∃ row, line_to_row (String.mk (mkRow (fun _ => 1) "1".data "p".data "T".data "a/b".data)) =
        Except.ok row ∧ (row.navlink.link = none ↔ "a/b".data = []) ∧
        ("a/b".data ≠ [] → row.navlink.link = some (String.mk "a/b".data))) :=
  ⟨c7_link_omission _ (by decide), c7_link_omission _ (by decide)⟩

/-- C8: two spellings of the same well-formed row that differ only in the
number of spaces at the twelve whitespace slots parse to the same `TableRow`. -/
theorem c8_whitespace_insensitive (w1 w2 : Nat → Nat) {d p t l : List Char}
    (h : ValidFields d p t l) :
    line_to_row (String.mk (mkRow w1 d p t l)) =
      line_to_row (String.mk (mkRow w2 d p t l)) := by
  rw [line_to_row_mk_nil w1 h, line_to_row_mk_nil w2 h]

/-- C8 witness: a compact and a widely spaced spelling of one row agree. -/
theorem c8_whitespace_insensitive_witness :
    line_to_row (String.mk (mkRow (fun _ => 0) "1".data "p".data "t".data "x".data)) =
      line_to_row (String.mk (mkRow (fun _ => 3) "1".data "p".data "t".data "x".data)) :=
  c8_whitespace_insensitive _ _ (by decide)

/-- C9: when a header occurs anywhere, the matched table span is the whole
page, so a row-shaped line occurring before the header line is also parsed and
yielded, in page order. -/
theorem c9_row_before_header (r1 r2 : RowSpec) (h1 : ValidSpec r1) (h2 : ValidSpec r2) :
    tableMatch (String.mk (specLine r1 ++ '\n' :: (headerLine ++ '\n' :: specLine r2))) =
      some (String.mk (specLine r1 ++ '\n' :: (headerLine ++ '\n' :: specLine r2))) ∧
    from_page (String.mk (specLine r1 ++ '\n' :: (headerLine ++ '\n' :: specLine r2))) =
      Except.ok [specRow r1, specRow r2] := by
  have hh : hasHeaderSub (specLine r1 ++ '\n' :: (headerLine ++ '\n' :: specLine r2)) = true := by
    have hx := hasHeaderSub_append_right (hasHeaderSub_headerLine ('\n' :: specLine r2))
      (specLine r1 ++ ['\n'])
    simpa using hx
  have hn1 : noNL (specLine r1) := noNL_mkRow r1.ws h1
  have hn2 : noNL (specLine r2) := noNL_mkRow r2.ws h2
  have hsplit : splitlines (specLine r1 ++ '\n' :: (headerLine ++ '\n' :: specLine r2)) =
      [specLine r1, headerLine, specLine r2] := by
    simp only [splitlines]
    rw [splitAll_append_line hn1, splitAll_append_line noNL_headerLine, splitAll_noNL hn2]
    simp only [List.reverse_nil, List.nil_append]
    exact dropLastEmpty_all_ne (by
      intro x hx
      simp only [List.mem_cons, List.not_mem_nil, or_false] at hx
      rcases hx with rfl | rfl | rfl
      · exact mkRow_ne_nil _ _ _ _ _
      · decide
      · exact mkRow_ne_nil _ _ _ _ _)
  constructor
  · simp [tableMatch, string_mk_data, hh]
  · rw [from_page_header (by rw [string_mk_data]; exact hh), string_mk_data, hsplit]
    have hc := consumeRows_specLines (r1 :: r2 :: []) (by
      intro x hx
      simp only [List.mem_cons, List.not_mem_nil, or_false] at hx
      rcases hx with rfl | rfl
      · exact h1
      · exact h2)
    simp only [List.map_cons, List.map_nil] at hc
    simp [List.filter_cons, filter_line_specLine h1, filter_line_specLine h2,
      filter_line_headerLine, hc]

/-- C9 witness: a concrete page with a row line before the header yields that
row first. -/
theorem c9_row_before_header_witness :
    from_page (String.mk (specLine exSpecA ++ '\n' :: (headerLine ++ '\n' :: specLine exSpecB))) =
      Except.ok [specRow exSpecA, specRow exSpecB] :=
  (c9_row_before_header exSpecA exSpecB (by decide) (by decide)).2

/-- C10: a line that begins with a complete well-formed row followed by
arbitrary trailing text is still classified as a row, and parses to the same
`TableRow` as the line without the trailing text. -/
theorem c10_trailing_text (r : RowSpec) (trail : List Char) (h : ValidSpec r) :
    filter_line (specLine r ++ trail) = false ∧
    line_to_row (String.mk (specLine r ++ trail)) = line_to_row (String.mk (specLine r)) := by
  unfold specLine
  constructor
  · exact filter_line_mk r.ws trail h
  · rw [line_to_row_mk r.ws trail h, line_to_row_mk_nil r.ws h]

/-- C10 witness: a concrete row with trailing junk is kept and parses the
same. -/
theorem c10_trailing_text_witness :
    filter_line (specLine exSpecA ++ " trailing junk".data) = false ∧
    line_to_row (String.mk (specLine exSpecA ++ " trailing junk".data)) =
      line_to_row (String.mk (specLine exSpecA)) :=
  c10_trailing_text exSpecA (" trailing junk".data) (by decide)
